import Mathlib

set_option maxRecDepth 4000

/-!
Shallow embedding of the text-chunking and embedding pipeline of
`text_to_embeddings.py` (Data-AI-Prepare repository), with proofs of the
behavioural claims about it.

Python strings are modelled as lists of characters.  The Python string
operations the code uses (`text.split(sep)`, `s.strip()`, `s.split()`,
`' '.join(ws)`) are implemented below on that representation.  External
collaborators (the file system, the PDF extractor, the OpenAI client, the
persistence sink) are abstracted as function parameters; the observable
effects the claims talk about (attempt counts, sleeps, extraction calls,
output writes, return values) are recorded in explicit result structures.
-/

/-- Whitespace predicate of Python `str.strip()` / `str.split()`
(ASCII whitespace: space, tab, newline, carriage return, vertical tab,
form feed). -/
def isSpace (c : Char) : Bool :=
  c = ' ' || c = '\t' || c = '\n' || c = '\r' || c = Char.ofNat 11 || c = Char.ofNat 12

/-- Characters of a string literal. -/
def str (s : String) : List Char := s.data

/-- Helper for `words`: scans the list, building the current word in `acc`
(reversed). -/
def wordsAux : List Char → List Char → List (List Char)
  | [], acc => if acc = [] then [] else [acc.reverse]
  | c :: cs, acc =>
    if isSpace c then
      if acc = [] then wordsAux cs [] else acc.reverse :: wordsAux cs []
    else
      wordsAux cs (c :: acc)

/-- Python `s.split()`: the maximal whitespace-free words of a string. -/
def words (s : List Char) : List (List Char) := wordsAux s []

/-- Python `s.strip()`: remove leading and trailing whitespace. -/
def strip (s : List Char) : List Char :=
  ((s.dropWhile isSpace).reverse.dropWhile isSpace).reverse

/-- Python `' '.join(ws)`. -/
def joinWords : List (List Char) → List Char
  | [] => []
  | [w] => w
  | w :: x :: ws => w ++ ' ' :: joinWords (x :: ws)

/-- Helper for `splitOnSep`, carrying the current piece reversed in `acc`.
Scans left to right; whenever the separator is a prefix of the remaining
input, the current piece is closed and the separator skipped.  The fuel
argument only bounds the recursion; every step consumes at least one
character, so with fuel = length of the input the middle case is never
reached. -/
def splitOnSepAux (sep : List Char) : Nat → List Char → List Char → List (List Char)
  | _, [], acc => [acc.reverse]
  | 0, s, acc => [acc.reverse ++ s]
  | fuel + 1, c :: cs, acc =>
    if sep ≠ [] ∧ sep.isPrefixOf (c :: cs) = true then
      acc.reverse :: splitOnSepAux sep fuel (List.drop sep.length (c :: cs)) []
    else
      splitOnSepAux sep fuel cs (c :: acc)

/-- Python `text.split(sep)` for a non-empty separator (Python raises on an
empty separator; the claims only concern valid separators). -/
def splitOnSep (sep text : List Char) : List (List Char) :=
  splitOnSepAux sep text.length text []

/-- State of the segment loop of `split_text_into_chunks`
(source lines 63-65): emitted chunks, the current buffer, and the tracked
running word count. -/
structure ChunkState where
  chunks : List (List Char)
  current_chunk : List Char
  current_length : Nat

/-- Overlap seed for a new chunk (source lines 76-80): the last `overlap`
words of the just-closed buffer when `overlap > 0` and the buffer has at
least `overlap` words, otherwise all of its words. -/
def seedOf (overlap : Int) (buf : List Char) : List Char :=
  let cw := words buf
  if 0 < overlap ∧ overlap ≤ (cw.length : Int) then
    joinWords (cw.drop (cw.length - overlap.toNat))
  else
    joinWords cw

/-- One iteration of the segment loop of `split_text_into_chunks`
(source lines 67-88). -/
def stepSegment (chunk_size overlap : Int) (st : ChunkState) (seg0 : List Char) :
    ChunkState :=
  let seg := strip seg0
  if seg = [] then st
  else
    let segLen := (words seg).length
    if chunk_size < (st.current_length : Int) + segLen then
      let chunks1 :=
        if st.current_chunk = [] then st.chunks
        else st.chunks ++ [strip st.current_chunk]
      let nc := seedOf overlap st.current_chunk ++ ' ' :: seg
      ⟨chunks1, nc, (words nc).length⟩
    else
      let nc :=
        if st.current_chunk = [] then seg
        else st.current_chunk ++ ' ' :: seg
      ⟨st.chunks, nc, st.current_length + segLen⟩

/-- Model of `split_text_into_chunks` (source lines 48-93). -/
def split_text_into_chunks (text separator : List Char)
    (chunk_size overlap : Int) : List (List Char) :=
  let st := (splitOnSep separator text).foldl
    (stepSegment chunk_size overlap) ⟨[], [], 0⟩
  if st.current_chunk = [] then st.chunks
  else st.chunks ++ [strip st.current_chunk]

/-- Outcome of one call to the external embedding API, as classified by the
try/except arms of `generate_embeddings_for_chunk` (source lines 129-153).
A response without the expected vector payload raises a ValueError inside
the try block and is caught by the generic handler (`malformedResponse`). -/
inductive ApiOutcome where
  | success (v : List Int)
  | rateLimited
  | connectionFailed
  | apiFailed
  | openaiFailed
  | malformedResponse
  | unexpected
deriving DecidableEq

/-- Observable trace of `generate_embeddings_for_chunk`: number of API
attempts made, number of backoff sleeps performed, and the returned value
(`none` models Python `None`). -/
structure RetryTrace where
  attempts : Nat
  sleeps : Nat
  result : Option (List Int)
deriving DecidableEq

/-- The retry loop body of `generate_embeddings_for_chunk` over the list of
remaining attempt numbers: a successful attempt returns immediately; every
other outcome falls into an except arm that sleeps `backoff_factor` seconds
once and continues with the next attempt (source lines 129-153). -/
def retryAttempts (oracle : Nat → ApiOutcome) :
    List Nat → Nat → Nat → RetryTrace
  | [], a, s => ⟨a, s, none⟩
  | i :: rest, a, s =>
    match oracle i with
    | ApiOutcome.success v => ⟨a + 1, s, some v⟩
    | _ => retryAttempts oracle rest (a + 1) (s + 1)

/-- Model of `generate_embeddings_for_chunk` (source lines 116-155): the
loop `for attempt in range(1, retries + 1)` with the API call abstracted by
`oracle` (the outcome of each numbered attempt); falls through to
`return None` when the attempts are exhausted. -/
def generate_embeddings_for_chunk (oracle : Nat → ApiOutcome)
    (retries : Nat) : RetryTrace :=
  retryAttempts oracle (List.range' 1 retries) 0 0

/-- Python `s.lower()`. -/
def lowerStr (s : List Char) : List Char := s.map Char.toLower

/-- File filter of `generate_embeddings_from_folder` (source line 286):
`file.lower().endswith(('.txt', '.pdf'))`. -/
def eligibleFile (f : List Char) : Bool :=
  (str ".txt").isSuffixOf (lowerStr f) || (str ".pdf").isSuffixOf (lowerStr f)

/-- Count contributed by one completed future (source lines 302-308): the
per-file result, with an exception caught, logged and contributing zero. -/
def futureCount (r : Except (List Char) Nat) : Nat :=
  match r with
  | Except.ok n => n
  | Except.error _ => 0

/-- Observable outcome of `generate_embeddings_from_folder`: the value the
function returns (Python `None`), the total embedding count it accumulates
and prints in the summary line, and the number of files dispatched. -/
structure FolderRun where
  returned : Option Nat
  totalEmbeddings : Nat
  totalFiles : Nat
deriving DecidableEq

/-- Model of `generate_embeddings_from_folder` (source lines 261-310):
filters the directory listing to eligible files, dispatches each to
`process_file` (abstracted by `perFile`, `Except.error` modelling a future
whose `result()` raises), and accumulates the total.  Futures complete in
nondeterministic order, but the accumulated sum is order-independent, so
the fold is taken in listing order.  The function body ends with a print
and has no return statement, hence `returned := none`. -/
def generate_embeddings_from_folder (files : List (List Char))
    (perFile : List Char → Except (List Char) Nat) : FolderRun :=
  let fs := files.filter eligibleFile
  ⟨none, fs.foldl (fun acc f => acc + futureCount (perFile f)) 0, fs.length⟩

/-- Deterministic output file name derived by `process_file`
(source lines 205-210): `<stem>_embeddings.<ext>` with the extension equal
to the save format. -/
def embeddingFileName (base save_as : List Char) : List Char :=
  base ++ str "_embeddings." ++ save_as

/-- Save formats for which `process_file` derives an output path
(source lines 205-213); any other format leaves `embedding_file = None`. -/
def supportedFormat (save_as : List Char) : Bool :=
  if save_as = str "npy" then true
  else if save_as = str "csv" then true
  else if save_as = str "json" then true
  else false

/-- Observable outcome of `process_file`: the returned count, whether the
text-extraction step ran, and whether an output file was written. -/
structure ProcessOutcome where
  returnedCount : Nat
  extractionCalled : Bool
  wroteOutput : Bool
deriving DecidableEq

/-- Embeddings accumulated over the chunks (source lines 239-245): a chunk
whose embedding call yields `None` — or an empty vector, since Python tests
`if embedding:` — contributes nothing. -/
def collectEmbeddings (oracle : List Char → Option (List Int))
    (chunks : List (List Char)) : List (List Int) :=
  chunks.foldl (fun acc c =>
    match oracle c with
    | some v => if v = [] then acc else acc ++ [v]
    | none => acc) []

/-- Model of `process_file` (source lines 184-259).  Collaborators are
abstracted: `existsF` is the file-existence test on the target path,
`readText` the content read for a `.txt` file, `pdfText` the PDF extraction
result, `oracle` the per-chunk embedding call; the sink (`save_embeddings`)
is invoked exactly when an output path was derived, i.e. when the format is
supported.  `ext` is the file extension produced by `os.path.splitext`,
lowercased by the source before comparison. -/
def process_file (ext base save_as : List Char) (existsF : List Char → Bool)
    (readText pdfText separator : List Char) (chunk_size overlap : Int)
    (oracle : List Char → Option (List Int)) : ProcessOutcome :=
  let extL := lowerStr ext
  let supported := supportedFormat save_as
  if supported = true ∧ existsF (embeddingFileName base save_as) = true then
    ⟨0, false, false⟩
  else if extL = str ".txt" then
    ⟨(collectEmbeddings oracle
        (split_text_into_chunks readText separator chunk_size overlap)).length,
      true, supported⟩
  else if extL = str ".pdf" then
    if strip pdfText = [] then ⟨0, true, false⟩
    else
      ⟨(collectEmbeddings oracle
          (split_text_into_chunks pdfText separator chunk_size overlap)).length,
        true, supported⟩
  else ⟨0, false, false⟩

-- Sanity checks of the embedding on hand-traced inputs.
example : splitOnSep (str "\n\n") (str "a\n\nb c") = [str "a", str "b c"] := by decide
example : words (str "  a  bc ") = [str "a", str "bc"] := by decide
example : strip (str "  a b  ") = str "a b" := by decide
example : split_text_into_chunks (str "a b\n\nc d") (str "\n\n") 3 0 =
    [str "a b", str "a b c d"] := by decide
example : split_text_into_chunks
    (str "a b c d e\n\nf g h i j\n\nk l m n o\n\np q r s t") (str "\n\n") 10 8 =
    [str "a b c d e f g h i j",
     str "c d e f g h i j k l m n o",
     str "h i j k l m n o p q r s t"] := by decide
example : split_text_into_chunks (str " ") (str "\n\n") 1 100 = [] := by decide
example : generate_embeddings_for_chunk (fun _ => ApiOutcome.rateLimited) 3 =
    ⟨3, 3, none⟩ := by decide
example : generate_embeddings_for_chunk
    (fun i => if i = 2 then ApiOutcome.success [7] else ApiOutcome.apiFailed) 3 =
    ⟨2, 1, some [7]⟩ := by decide
example : generate_embeddings_from_folder [str "a.txt", str "b.PDF", str "c.doc"]
    (fun f => if f = str "a.txt" then Except.ok 2
      else if f = str "b.PDF" then Except.ok 3
      else Except.error (str "boom")) = ⟨none, 5, 2⟩ := by decide
example : process_file (str ".txt") (str "doc") (str "npy") (fun _ => false)
    (str " ") (str "") (str "\n\n") 1000 100 (fun _ => none) = ⟨0, true, true⟩ := by
  decide
example : process_file (str ".pdf") (str "doc") (str "npy") (fun _ => false)
    (str "") (str " ") (str "\n\n") 1000 100 (fun _ => none) = ⟨0, true, false⟩ := by
  decide
example : process_file (str ".txt") (str "doc") (str "npy")
    (fun p => p = str "doc_embeddings.npy") (str "x") (str "") (str "\n\n") 1000 100
    (fun _ => none) = ⟨0, false, false⟩ := by decide

/-! Lemmas about the string primitives `words`, `strip` and `joinWords`. -/

theorem wordsAux_allSpace : ∀ s : List Char, s.all isSpace = true →
    ∀ acc : List Char, wordsAux s acc = if acc = [] then [] else [acc.reverse] := by
  intro s
  induction s with
  | nil => intro _ acc; rfl
  | cons c cs ih =>
    intro h acc
    rw [List.all_cons, Bool.and_eq_true] at h
    by_cases hacc : acc = []
    · subst hacc; simp [wordsAux, h.1, ih h.2]
    · simp [wordsAux, h.1, hacc, ih h.2]

theorem wordsAux_ne_nil : ∀ s acc : List Char, acc ≠ [] → wordsAux s acc ≠ [] := by
  intro s
  induction s with
  | nil => intro acc h; simp [wordsAux, h]
  | cons c cs ih =>
    intro acc h
    by_cases hc : isSpace c
    · simp [wordsAux, hc, h]
    · simp only [wordsAux, hc, Bool.false_eq_true, if_false]
      exact ih _ (by simp)

theorem words_of_allSpace (s : List Char) (h : s.all isSpace = true) :
    words s = [] := by
  rw [words, wordsAux_allSpace s h]; rfl

theorem allSpace_of_words : ∀ s : List Char, words s = [] → s.all isSpace = true := by
  intro s
  induction s with
  | nil => intro _; rfl
  | cons c cs ih =>
    intro h
    by_cases hc : isSpace c
    · rw [words, wordsAux, if_pos hc, if_pos rfl] at h
      rw [List.all_cons, hc, Bool.true_and]
      exact ih h
    · rw [words, wordsAux, if_neg hc] at h
      exact absurd h (wordsAux_ne_nil cs [c] (by simp))

theorem words_eq_nil_iff (s : List Char) : words s = [] ↔ s.all isSpace = true :=
  ⟨allSpace_of_words s, words_of_allSpace s⟩

theorem wordsAux_append_space : ∀ x y acc : List Char,
    wordsAux (x ++ ' ' :: y) acc = wordsAux x acc ++ wordsAux y [] := by
  intro x
  have hsp : isSpace ' ' = true := by decide
  induction x with
  | nil =>
    intro y acc
    by_cases h : acc = [] <;> simp [wordsAux, hsp, h]
  | cons c cs ih =>
    intro y acc
    by_cases hc : isSpace c
    · by_cases h : acc = [] <;> simp [wordsAux, hc, h, ih]
    · simp [wordsAux, hc, ih]

theorem words_append_space (x y : List Char) :
    words (x ++ ' ' :: y) = words x ++ words y :=
  wordsAux_append_space x y []

theorem wordsAux_append_allSpace : ∀ x b acc : List Char, b.all isSpace = true →
    wordsAux (x ++ b) acc = wordsAux x acc := by
  intro x
  induction x with
  | nil =>
    intro b acc hb
    rw [List.nil_append, wordsAux_allSpace b hb acc]; rfl
  | cons c cs ih =>
    intro b acc hb
    by_cases hc : isSpace c <;> by_cases h : acc = [] <;>
      simp [wordsAux, hc, h, ih _ _ hb]

theorem wordsAux_allSpace_append : ∀ a x : List Char, a.all isSpace = true →
    wordsAux (a ++ x) [] = wordsAux x [] := by
  intro a
  induction a with
  | nil => intro x _; rfl
  | cons c cs ih =>
    intro x h
    rw [List.all_cons, Bool.and_eq_true] at h
    simp [wordsAux, h.1, ih x h.2]

theorem wordsAux_word_append : ∀ w rest acc : List Char,
    w.all (fun c => !isSpace c) = true →
    wordsAux (w ++ rest) acc = wordsAux rest (w.reverse ++ acc) := by
  intro w
  induction w with
  | nil => intro rest acc _; rfl
  | cons c cs ih =>
    intro rest acc h
    rw [List.all_cons, Bool.and_eq_true] at h
    have hc : isSpace c = false := by
      cases hh : isSpace c
      · rfl
      · rw [hh] at h; simp at h
    simp [wordsAux, hc, ih rest (c :: acc) h.2]

theorem words_single (w : List Char) (h1 : w ≠ [])
    (h2 : w.all (fun c => !isSpace c) = true) : words w = [w] := by
  have h3 := wordsAux_word_append w [] [] h2
  rw [List.append_nil] at h3
  rw [words, h3]
  simp [wordsAux, h1]

theorem wordsAux_sane : ∀ s acc : List Char,
    acc.all (fun c => !isSpace c) = true →
    ∀ w ∈ wordsAux s acc, w ≠ [] ∧ w.all (fun c => !isSpace c) = true := by
  intro s
  induction s with
  | nil =>
    intro acc hacc w hw
    by_cases h : acc = []
    · subst h; simp [wordsAux] at hw
    · rw [wordsAux, if_neg h] at hw
      rw [List.mem_singleton] at hw
      subst hw
      exact ⟨by simp [h], by simpa using hacc⟩
  | cons c cs ih =>
    intro acc hacc w hw
    by_cases hc : isSpace c
    · by_cases h : acc = []
      · subst h
        rw [wordsAux, if_pos hc, if_pos rfl] at hw
        exact ih [] rfl w hw
      · rw [wordsAux, if_pos hc, if_neg h, List.mem_cons] at hw
        rcases hw with hw | hw
        · subst hw
          exact ⟨by simp [h], by simpa using hacc⟩
        · exact ih [] rfl w hw
    · rw [wordsAux, if_neg hc] at hw
      refine ih (c :: acc) ?_ w hw
      rw [List.all_cons, Bool.and_eq_true]
      exact ⟨by simp [hc], hacc⟩

theorem words_sane (s : List Char) :
    ∀ w ∈ words s, w ≠ [] ∧ w.all (fun c => !isSpace c) = true :=
  wordsAux_sane s [] rfl

theorem words_joinWords : ∀ ws : List (List Char),
    (∀ w ∈ ws, w ≠ [] ∧ w.all (fun c => !isSpace c) = true) →
    words (joinWords ws) = ws := by
  intro ws
  induction ws with
  | nil => intro _; rfl
  | cons w t ih =>
    intro h
    cases t with
    | nil =>
      have hw := h w (by simp)
      simpa [joinWords] using words_single w hw.1 hw.2
    | cons x u =>
      rw [joinWords, words_append_space]
      have hw := h w (by simp)
      rw [words_single w hw.1 hw.2, ih (fun v hv => h v (by simp [hv]))]
      rfl

theorem all_takeWhile (p : Char → Bool) (l : List Char) :
    (l.takeWhile p).all p = true := by
  rw [List.all_eq_true]
  intro x hx
  exact List.mem_takeWhile_imp hx

theorem strip_decomp (s : List Char) : ∃ a b : List Char,
    s = a ++ (strip s ++ b) ∧ a.all isSpace = true ∧ b.all isSpace = true := by
  refine ⟨s.takeWhile isSpace,
    ((s.dropWhile isSpace).reverse.takeWhile isSpace).reverse, ?_,
    all_takeWhile _ _, by
      simp only [List.all_reverse]
      exact all_takeWhile isSpace (s.dropWhile isSpace).reverse⟩
  conv_lhs => rw [← List.takeWhile_append_dropWhile isSpace s]
  congr 1
  conv_lhs => rw [← List.reverse_reverse (s.dropWhile isSpace),
    ← List.takeWhile_append_dropWhile isSpace (s.dropWhile isSpace).reverse]
  rw [List.reverse_append]
  rfl

theorem words_strip (s : List Char) : words (strip s) = words s := by
  obtain ⟨a, b, hs, ha, hb⟩ := strip_decomp s
  conv_rhs => rw [hs]
  rw [words, words, wordsAux_allSpace_append a _ ha,
    wordsAux_append_allSpace (strip s) b [] hb]

theorem strip_eq_nil_iff (s : List Char) :
    strip s = [] ↔ s.all isSpace = true := by
  constructor
  · intro h
    obtain ⟨a, b, hs, ha, hb⟩ := strip_decomp s
    rw [hs, h]
    simp [List.all_append, ha, hb]
  · intro h
    have h1 : s.dropWhile isSpace = [] := List.dropWhile_eq_nil_iff.mpr (fun x hx => by
      rw [List.all_eq_true] at h; exact h x hx)
    rw [strip, h1]; rfl

theorem strip_ne_nil_of_words (s : List Char) (h : words s ≠ []) :
    strip s ≠ [] := by
  intro he
  exact h (by rw [← words_strip, he]; rfl)

theorem words_strip_ne_nil (s : List Char) (h : strip s ≠ []) :
    words (strip s) ≠ [] := by
  rw [words_strip]
  intro he
  exact h ((strip_eq_nil_iff s).mpr (allSpace_of_words s he))

theorem dropWhile_head_false (p : Char → Bool) : ∀ (l : List Char) (c : Char),
    (l.dropWhile p).head? = some c → p c = false := by
  intro l
  induction l with
  | nil => intro c h; simp at h
  | cons a t ih =>
    intro c h
    by_cases ha : p a
    · rw [List.dropWhile_cons, if_pos ha] at h
      exact ih c h
    · rw [List.dropWhile_cons, if_neg ha] at h
      rw [List.head?_cons, Option.some_inj] at h
      subst h
      simpa using ha

theorem dropWhile_eq_self_of_head (p : Char → Bool) (l : List Char)
    (h : ∀ c, l.head? = some c → p c = false) : l.dropWhile p = l := by
  cases l with
  | nil => rfl
  | cons a t =>
    have ha := h a rfl
    simp [List.dropWhile_cons, ha]

theorem dropWhile_getLast? (p : Char → Bool) : ∀ l : List Char,
    l.dropWhile p ≠ [] → (l.dropWhile p).getLast? = l.getLast? := by
  intro l
  induction l with
  | nil => intro h; exact absurd rfl h
  | cons a t ih =>
    intro h
    by_cases ha : p a = true
    · rw [List.dropWhile_cons, if_pos ha] at h ⊢
      rw [ih h]
      have ht : t ≠ [] := by
        intro he; subst he; simp at h
      cases t with
      | nil => exact absurd rfl ht
      | cons b u => rw [List.getLast?_cons_cons]
    · rw [List.dropWhile_cons, if_neg ha]

theorem strip_head_false (s : List Char) :
    ∀ c, (strip s).head? = some c → isSpace c = false := by
  intro c hc
  rw [strip, List.head?_reverse] at hc
  have hne : (s.dropWhile isSpace).reverse.dropWhile isSpace ≠ [] := by
    intro he; rw [he] at hc; simp at hc
  rw [dropWhile_getLast? _ _ hne, List.getLast?_reverse] at hc
  exact dropWhile_head_false isSpace _ c hc

theorem strip_last_false (s : List Char) :
    ∀ c, (strip s).getLast? = some c → isSpace c = false := by
  intro c hc
  rw [strip, List.getLast?_reverse] at hc
  exact dropWhile_head_false isSpace _ c hc

theorem strip_eq_self (l : List Char)
    (h1 : ∀ c, l.head? = some c → isSpace c = false)
    (h2 : ∀ c, l.getLast? = some c → isSpace c = false) : strip l = l := by
  rw [strip, dropWhile_eq_self_of_head isSpace l h1,
    dropWhile_eq_self_of_head isSpace l.reverse
      (fun c hc => h2 c (by rwa [List.head?_reverse] at hc))]
  exact List.reverse_reverse l

theorem strip_idem (s : List Char) : strip (strip s) = strip s :=
  strip_eq_self (strip s) (strip_head_false s) (strip_last_false s)

/-! Branch equations and invariants for the segment loop. -/

theorem stepSegment_blank (cs_ ov : Int) (st : ChunkState) (seg : List Char)
    (h : strip seg = []) : stepSegment cs_ ov st seg = st := by
  simp [stepSegment, h]

theorem stepSegment_fits (cs_ ov : Int) (st : ChunkState) (seg : List Char)
    (h1 : strip seg ≠ [])
    (h2 : ¬ cs_ < (st.current_length : Int) + (words (strip seg)).length) :
    stepSegment cs_ ov st seg =
      ⟨st.chunks,
        if st.current_chunk = [] then strip seg
        else st.current_chunk ++ ' ' :: strip seg,
        st.current_length + (words (strip seg)).length⟩ := by
  simp [stepSegment, h1, h2]

theorem stepSegment_close (cs_ ov : Int) (st : ChunkState) (seg : List Char)
    (h1 : strip seg ≠ [])
    (h2 : cs_ < (st.current_length : Int) + (words (strip seg)).length) :
    stepSegment cs_ ov st seg =
      ⟨if st.current_chunk = [] then st.chunks
        else st.chunks ++ [strip st.current_chunk],
        seedOf ov st.current_chunk ++ ' ' :: strip seg,
        (words (seedOf ov st.current_chunk ++ ' ' :: strip seg)).length⟩ := by
  simp [stepSegment, h1, h2]

/-- Number of words the overlap seed carries over from a just-closed chunk
with `n` words. -/
def seedLen (ov : Int) (n : Nat) : Nat :=
  if 0 < ov ∧ ov ≤ (n : Int) then ov.toNat else n

theorem seedLen_le (ov : Int) (n : Nat) : seedLen ov n ≤ n := by
  rw [seedLen]
  split
  · next h => omega
  · exact Nat.le_refl n

theorem seedLen_le_toNat (ov : Int) (n : Nat) (h : 0 < ov) :
    seedLen ov n ≤ ov.toNat := by
  rw [seedLen]
  split
  · exact Nat.le_refl _
  · next hn =>
    rw [not_and] at hn
    have := hn h
    omega

theorem seedOf_words (ov : Int) (buf : List Char) :
    words (seedOf ov buf) =
      (words buf).drop ((words buf).length - seedLen ov (words buf).length) := by
  rw [seedOf, seedLen]
  by_cases h : 0 < ov ∧ ov ≤ ((words buf).length : Int)
  · simp only [if_pos h]
    exact words_joinWords _ (fun w hw => words_sane buf w (List.drop_subset _ _ hw))
  · simp only [if_neg h, Nat.sub_self, List.drop_zero]
    exact words_joinWords _ (words_sane buf)

theorem seedOf_length (ov : Int) (buf : List Char) :
    (words (seedOf ov buf)).length = seedLen ov (words buf).length := by
  rw [seedOf_words, List.length_drop]
  have := seedLen_le ov (words buf).length
  omega

theorem foldl_inv {P : ChunkState → Prop} (cs_ ov : Int)
    (hstep : ∀ st seg, P st → P (stepSegment cs_ ov st seg)) :
    ∀ (segs : List (List Char)) (st : ChunkState), P st →
      P (segs.foldl (stepSegment cs_ ov) st) := by
  intro segs
  induction segs with
  | nil => intro st h; exact h
  | cons a t ih =>
    intro st h
    rw [List.foldl_cons]
    exact ih _ (hstep st a h)

theorem foldl_inv_mem {L : List (List Char)} {P : ChunkState → Prop} (cs_ ov : Int)
    (hstep : ∀ st seg, seg ∈ L → P st → P (stepSegment cs_ ov st seg)) :
    ∀ segs : List (List Char), (∀ s ∈ segs, s ∈ L) → ∀ st : ChunkState, P st →
      P (segs.foldl (stepSegment cs_ ov) st) := by
  intro segs
  induction segs with
  | nil => intro _ st h; exact h
  | cons a t ih =>
    intro hsub st h
    rw [List.foldl_cons]
    exact ih (fun s hs => hsub s (by simp [hs])) _ (hstep st a (hsub a (by simp)) h)

/-- Basic well-formedness of the loop state: the tracked running count is
the buffer's word count, the buffer is only empty before any chunk was
emitted, and a non-empty buffer has at least one word. -/
def StBase (st : ChunkState) : Prop :=
  st.current_length = (words st.current_chunk).length ∧
  (st.current_chunk = [] → st.chunks = []) ∧
  (st.current_chunk ≠ [] → words st.current_chunk ≠ [])

theorem stBase_init : StBase ⟨[], [], 0⟩ :=
  ⟨rfl, fun _ => rfl, fun h => absurd rfl h⟩

theorem stepSegment_base (cs_ ov : Int) (st : ChunkState) (seg : List Char)
    (h : StBase st) : StBase (stepSegment cs_ ov st seg) := by
  by_cases h0 : strip seg = []
  · rw [stepSegment_blank _ _ _ _ h0]; exact h
  · by_cases h2 : cs_ < (st.current_length : Int) + (words (strip seg)).length
    · rw [stepSegment_close _ _ _ _ h0 h2]
      refine ⟨rfl, ?_, ?_⟩
      · intro hnc
        rw [List.append_eq_nil] at hnc
        exact absurd hnc.2 (by simp)
      · intro _
        rw [words_append_space]
        intro he
        rw [List.append_eq_nil] at he
        exact words_strip_ne_nil seg h0 he.2
    · rw [stepSegment_fits _ _ _ _ h0 h2]
      by_cases hcc : st.current_chunk = []
      · rw [if_pos hcc]
        refine ⟨?_, fun h' => absurd h' h0, fun _ => words_strip_ne_nil seg h0⟩
        · have h01 : st.current_length = 0 := by
            rw [h.1, hcc]; rfl
          rw [h01, Nat.zero_add]
      · rw [if_neg hcc]
        refine ⟨?_, ?_, ?_⟩
        · rw [words_append_space, List.length_append, h.1]
        · intro h'
          rw [List.append_eq_nil] at h'
          exact absurd h'.1 hcc
        · intro _
          rw [words_append_space]
          intro he
          rw [List.append_eq_nil] at he
          exact words_strip_ne_nil seg h0 he.2

theorem split_base (text sep : List Char) (cs_ ov : Int) :
    StBase ((splitOnSep sep text).foldl (stepSegment cs_ ov) ⟨[], [], 0⟩) :=
  foldl_inv cs_ ov (stepSegment_base cs_ ov) _ _ stBase_init

/-- Invariant for chunk hygiene: every emitted chunk is non-empty and equal
to its own stripped form. -/
def ChunksClean (st : ChunkState) : Prop :=
  StBase st ∧ ∀ c ∈ st.chunks, c ≠ [] ∧ strip c = c

theorem stepSegment_clean (cs_ ov : Int) (st : ChunkState) (seg : List Char)
    (h : ChunksClean st) : ChunksClean (stepSegment cs_ ov st seg) := by
  obtain ⟨hb, hc⟩ := h
  refine ⟨stepSegment_base cs_ ov st seg hb, ?_⟩
  by_cases h0 : strip seg = []
  · rw [stepSegment_blank _ _ _ _ h0]; exact hc
  · by_cases h2 : cs_ < (st.current_length : Int) + (words (strip seg)).length
    · rw [stepSegment_close _ _ _ _ h0 h2]
      by_cases hcc : st.current_chunk = []
      · rw [if_pos hcc]; exact hc
      · rw [if_neg hcc]
        intro c hcm
        rw [List.mem_append, List.mem_singleton] at hcm
        rcases hcm with hcm | hcm
        · exact hc c hcm
        · subst hcm
          exact ⟨strip_ne_nil_of_words _ (hb.2.2 hcc), strip_idem _⟩
    · rw [stepSegment_fits _ _ _ _ h0 h2]
      exact hc

theorem split_chunks_clean (text sep : List Char) (cs_ ov : Int) :
    ∀ c ∈ split_text_into_chunks text sep cs_ ov, c ≠ [] ∧ strip c = c := by
  intro c hc
  have hinv : ChunksClean ((splitOnSep sep text).foldl (stepSegment cs_ ov) ⟨[], [], 0⟩) :=
    foldl_inv cs_ ov (stepSegment_clean cs_ ov) _ _ ⟨stBase_init, by simp⟩
  simp only [split_text_into_chunks] at hc
  set st := (splitOnSep sep text).foldl (stepSegment cs_ ov) ⟨[], [], 0⟩ with hst
  by_cases hcc : st.current_chunk = []
  · rw [if_pos hcc] at hc
    exact hinv.2 c hc
  · rw [if_neg hcc, List.mem_append, List.mem_singleton] at hc
    rcases hc with hc | hc
    · exact hinv.2 c hc
    · subst hc
      exact ⟨strip_ne_nil_of_words _ (hinv.1.2.2 hcc), strip_idem _⟩

/-- Overlap relation between consecutive chunks: the leading `seedLen` words
of the later chunk equal the trailing `seedLen` words of the earlier one. -/
def SeedRel (ov : Int) (a b : List Char) : Prop :=
  (words b).take (seedLen ov (words a).length) =
    (words a).drop ((words a).length - seedLen ov (words a).length) ∧
  seedLen ov (words a).length ≤ (words b).length

theorem seedRel_strip_right (ov : Int) (a b : List Char) (h : SeedRel ov a b) :
    SeedRel ov a (strip b) := by
  simp only [SeedRel, words_strip]
  exact h

theorem seedRel_strip_left (ov : Int) (a b : List Char) (h : SeedRel ov a b) :
    SeedRel ov (strip a) b := by
  simp only [SeedRel, words_strip]
  exact h

/-- Invariant for the overlap chain: emitted chunks are pairwise related by
`SeedRel`, and the live buffer is so related to the last emitted chunk. -/
def SeedInv (ov : Int) (st : ChunkState) : Prop :=
  List.Chain' (SeedRel ov) st.chunks ∧
  ∀ a, st.chunks.getLast? = some a → SeedRel ov a st.current_chunk

theorem chain'_concat_of_rel {α : Type} {R : α → α → Prop} (l : List α) (x : α)
    (h1 : List.Chain' R l) (h2 : ∀ a, l.getLast? = some a → R a x) :
    List.Chain' R (l ++ [x]) := by
  rw [List.chain'_append]
  refine ⟨h1, List.chain'_singleton x, ?_⟩
  intro a ha y hy
  rw [List.head?_cons, Option.mem_def, Option.some_inj] at hy
  subst hy
  exact h2 a ha

theorem stepSegment_seed (cs_ ov : Int) (st : ChunkState) (seg : List Char)
    (h : StBase st ∧ SeedInv ov st) :
    StBase (stepSegment cs_ ov st seg) ∧ SeedInv ov (stepSegment cs_ ov st seg) := by
  have hb := h.1
  have hch := h.2.1
  have hlast := h.2.2
  refine ⟨stepSegment_base cs_ ov st seg hb, ?_⟩
  by_cases h0 : strip seg = []
  · rw [stepSegment_blank _ _ _ _ h0]; exact h.2
  · by_cases h2 : cs_ < (st.current_length : Int) + (words (strip seg)).length
    · rw [stepSegment_close _ _ _ _ h0 h2]
      by_cases hcc : st.current_chunk = []
      · rw [if_pos hcc]
        have hemp : st.chunks = [] := hb.2.1 hcc
        constructor
        · exact hch
        · intro a ha
          rw [hemp] at ha
          exact absurd ha (by simp)
      · rw [if_neg hcc]
        constructor
        · exact chain'_concat_of_rel _ _ hch
            (fun a ha => seedRel_strip_right ov a _ (hlast a ha))
        · intro a ha
          rw [List.getLast?_concat] at ha
          rw [Option.some_inj] at ha
          subst ha
          simp only [SeedRel, words_strip]
          rw [words_append_space, seedOf_words]
          constructor
          · rw [List.take_append_eq_append_take]
            have hlen : ((words st.current_chunk).drop
                ((words st.current_chunk).length -
                  seedLen ov (words st.current_chunk).length)).length =
                seedLen ov (words st.current_chunk).length := by
              rw [List.length_drop]
              have := seedLen_le ov (words st.current_chunk).length
              omega
            rw [hlen, Nat.sub_self, List.take_zero, List.append_nil,
              List.take_of_length_le (le_of_eq hlen)]
          · rw [List.length_append]
            have hlen2 : (words (seedOf ov st.current_chunk)).length =
                seedLen ov (words st.current_chunk).length := seedOf_length ov _
            rw [seedOf_words] at hlen2
            omega
    · rw [stepSegment_fits _ _ _ _ h0 h2]
      refine ⟨hch, ?_⟩
      intro a ha
      by_cases hcc : st.current_chunk = []
      · rw [hb.2.1 hcc] at ha
        exact absurd ha (by simp)
      · rw [if_neg hcc]
        have hr := hlast a ha
        simp only [SeedRel] at hr ⊢
        rw [words_append_space]
        constructor
        · rw [List.take_append_eq_append_take, Nat.sub_eq_zero_of_le hr.2,
            List.take_zero, List.append_nil]
          exact hr.1
        · rw [List.length_append]
          omega

theorem split_seed_chain (text sep : List Char) (cs_ ov : Int) :
    List.Chain' (SeedRel ov) (split_text_into_chunks text sep cs_ ov) := by
  have hinv : StBase ((splitOnSep sep text).foldl (stepSegment cs_ ov) ⟨[], [], 0⟩) ∧
      SeedInv ov ((splitOnSep sep text).foldl (stepSegment cs_ ov) ⟨[], [], 0⟩) :=
    foldl_inv cs_ ov (stepSegment_seed cs_ ov) _ _
      ⟨stBase_init, List.chain'_nil, by simp⟩
  simp only [split_text_into_chunks]
  set st := (splitOnSep sep text).foldl (stepSegment cs_ ov) ⟨[], [], 0⟩ with hst
  by_cases hcc : st.current_chunk = []
  · rw [if_pos hcc]
    exact hinv.2.1
  · rw [if_neg hcc]
    exact chain'_concat_of_rel _ _ hinv.2.1
      (fun a ha => seedRel_strip_right ov a _ (hinv.2.2 a ha))

theorem chain'_pair {α : Type} {R : α → α → Prop} (l : List α)
    (h : List.Chain' R l) (i : Nat) (a b : α)
    (h1 : l.get? i = some a) (h2 : l.get? (i + 1) = some b) : R a b := by
  obtain ⟨hia, hga⟩ := List.get?_eq_some.mp h1
  obtain ⟨hib, hgb⟩ := List.get?_eq_some.mp h2
  rw [← hga, ← hgb]
  exact List.chain'_iff_get.mp h i (by omega)

/-- Word-count bound on a chunk, relative to the segment pool `L`: either
within the budget, or bounded by the overlap carry plus the word count of a
single segment from `L`. -/
def WithinBudget (L : List (List Char)) (cs_ ov : Int) (c : List Char) : Prop :=
  ((words c).length : Int) ≤ cs_ ∨
    ∃ s ∈ L, strip s ≠ [] ∧ (words c).length ≤ ov.toNat + (words (strip s)).length

theorem withinBudget_strip (L : List (List Char)) (cs_ ov : Int) (c : List Char)
    (h : WithinBudget L cs_ ov c) : WithinBudget L cs_ ov (strip c) := by
  simp only [WithinBudget, words_strip] at h ⊢
  exact h

/-- Invariant for the word-count bound: every emitted chunk and the live
buffer are within the (overlap-relaxed) budget. -/
def BudgetInv (L : List (List Char)) (cs_ ov : Int) (st : ChunkState) : Prop :=
  StBase st ∧ (∀ c ∈ st.chunks, WithinBudget L cs_ ov c) ∧
    (st.current_chunk ≠ [] → WithinBudget L cs_ ov st.current_chunk)

theorem stepSegment_budget (L : List (List Char)) (cs_ ov : Int) (hov : 0 < ov)
    (st : ChunkState) (seg : List Char) (hmem : seg ∈ L)
    (h : BudgetInv L cs_ ov st) : BudgetInv L cs_ ov (stepSegment cs_ ov st seg) := by
  obtain ⟨hb, hcs, hbuf⟩ := h
  refine ⟨stepSegment_base cs_ ov st seg hb, ?_, ?_⟩
  · by_cases h0 : strip seg = []
    · rw [stepSegment_blank _ _ _ _ h0]; exact hcs
    · by_cases h2 : cs_ < (st.current_length : Int) + (words (strip seg)).length
      · rw [stepSegment_close _ _ _ _ h0 h2]
        by_cases hcc : st.current_chunk = []
        · rw [if_pos hcc]; exact hcs
        · rw [if_neg hcc]
          intro c hcm
          rw [List.mem_append, List.mem_singleton] at hcm
          rcases hcm with hcm | hcm
          · exact hcs c hcm
          · subst hcm
            exact withinBudget_strip L cs_ ov _ (hbuf hcc)
      · rw [stepSegment_fits _ _ _ _ h0 h2]
        exact hcs
  · by_cases h0 : strip seg = []
    · rw [stepSegment_blank _ _ _ _ h0]; exact hbuf
    · by_cases h2 : cs_ < (st.current_length : Int) + (words (strip seg)).length
      · rw [stepSegment_close _ _ _ _ h0 h2]
        intro _
        refine Or.inr ⟨seg, hmem, h0, ?_⟩
        rw [words_append_space, List.length_append, seedOf_length]
        have := seedLen_le_toNat ov (words st.current_chunk).length hov
        omega
      · rw [stepSegment_fits _ _ _ _ h0 h2]
        intro _
        refine Or.inl ?_
        have hlen : (words (if st.current_chunk = [] then strip seg
            else st.current_chunk ++ ' ' :: strip seg)).length =
            st.current_length + (words (strip seg)).length := by
          by_cases hcc : st.current_chunk = []
          · rw [if_pos hcc, hb.1, hcc]
            simp [words, wordsAux]
          · rw [if_neg hcc, words_append_space, List.length_append, hb.1]
        rw [hlen]
        omega

theorem split_budget (text sep : List Char) (cs_ ov : Int) (hov : 0 < ov) :
    ∀ c ∈ split_text_into_chunks text sep cs_ ov,
      WithinBudget (splitOnSep sep text) cs_ ov c := by
  intro c hc
  have hinv : BudgetInv (splitOnSep sep text) cs_ ov
      ((splitOnSep sep text).foldl (stepSegment cs_ ov) ⟨[], [], 0⟩) :=
    foldl_inv_mem cs_ ov (stepSegment_budget _ cs_ ov hov)
      (splitOnSep sep text) (fun _ hs => hs) _
      ⟨stBase_init, by simp, fun h => absurd rfl h⟩
  simp only [split_text_into_chunks] at hc
  set st := (splitOnSep sep text).foldl (stepSegment cs_ ov) ⟨[], [], 0⟩ with hst
  by_cases hcc : st.current_chunk = []
  · rw [if_pos hcc] at hc
    exact hinv.2.1 c hc
  · rw [if_neg hcc, List.mem_append, List.mem_singleton] at hc
    rcases hc with hc | hc
    · exact hinv.2.1 c hc
    · subst hc
      exact withinBudget_strip _ cs_ ov _ (hinv.2.2 hcc)

/-- The word list `w` occurs contiguously among the words of `c`. -/
def ContainsWords (w : List (List Char)) (c : List Char) : Prop :=
  ∃ pre post, words c = pre ++ w ++ post

theorem containsWords_strip (w : List (List Char)) (c : List Char)
    (h : ContainsWords w c) : ContainsWords w (strip c) := by
  simp only [ContainsWords, words_strip]
  exact h

/-- Invariant for segment placement: the word list `w` occurs contiguously
either in an emitted chunk or in the (non-empty) live buffer. -/
def SegPlaced (w : List (List Char)) (st : ChunkState) : Prop :=
  (∃ c ∈ st.chunks, ContainsWords w c) ∨
    (st.current_chunk ≠ [] ∧ ContainsWords w st.current_chunk)

theorem stepSegment_placed (cs_ ov : Int) (w : List (List Char))
    (st : ChunkState) (seg : List Char) (h : SegPlaced w st) :
    SegPlaced w (stepSegment cs_ ov st seg) := by
  by_cases h0 : strip seg = []
  · rw [stepSegment_blank _ _ _ _ h0]; exact h
  · by_cases h2 : cs_ < (st.current_length : Int) + (words (strip seg)).length
    · rw [stepSegment_close _ _ _ _ h0 h2]
      rcases h with ⟨c, hcm, hcw⟩ | ⟨hne, hcw⟩
      · refine Or.inl ⟨c, ?_, hcw⟩
        by_cases hcc : st.current_chunk = []
        · rw [if_pos hcc]; exact hcm
        · rw [if_neg hcc]; exact List.mem_append_left _ hcm
      · refine Or.inl ⟨strip st.current_chunk, ?_, containsWords_strip w _ hcw⟩
        rw [if_neg hne]
        exact List.mem_append_right _ (by simp)
    · rw [stepSegment_fits _ _ _ _ h0 h2]
      rcases h with ⟨c, hcm, hcw⟩ | ⟨hne, hcw⟩
      · exact Or.inl ⟨c, hcm, hcw⟩
      · refine Or.inr ⟨?_, ?_⟩
        · rw [if_neg hne]
          intro he
          rw [List.append_eq_nil] at he
          exact hne he.1
        · rw [if_neg hne]
          obtain ⟨pre, post, hpw⟩ := hcw
          refine ⟨pre, post ++ words (strip seg), ?_⟩
          rw [words_append_space, hpw]
          simp [List.append_assoc]

theorem stepSegment_places (cs_ ov : Int) (st : ChunkState) (seg : List Char)
    (h0 : strip seg ≠ []) :
    SegPlaced (words (strip seg)) (stepSegment cs_ ov st seg) := by
  by_cases h2 : cs_ < (st.current_length : Int) + (words (strip seg)).length
  · rw [stepSegment_close _ _ _ _ h0 h2]
    refine Or.inr ⟨?_, words (seedOf ov st.current_chunk), [], ?_⟩
    · intro he
      rw [List.append_eq_nil] at he
      exact absurd he.2 (by simp)
    · rw [words_append_space, List.append_nil]
  · rw [stepSegment_fits _ _ _ _ h0 h2]
    refine Or.inr ⟨?_, ?_⟩
    · by_cases hcc : st.current_chunk = []
      · rw [if_pos hcc]; exact h0
      · rw [if_neg hcc]
        intro he
        rw [List.append_eq_nil] at he
        exact hcc he.1
    · by_cases hcc : st.current_chunk = []
      · rw [if_pos hcc]
        exact ⟨[], [], by simp⟩
      · rw [if_neg hcc]
        refine ⟨words st.current_chunk, [], ?_⟩
        rw [words_append_space, List.append_nil]

theorem split_covers_segment (text sep : List Char) (cs_ ov : Int)
    (seg : List Char) (hmem : seg ∈ splitOnSep sep text) (h0 : strip seg ≠ []) :
    ∃ c ∈ split_text_into_chunks text sep cs_ ov,
      ContainsWords (words (strip seg)) c := by
  obtain ⟨l1, l2, hsplit⟩ := List.append_of_mem hmem
  have hplaced : SegPlaced (words (strip seg))
      ((splitOnSep sep text).foldl (stepSegment cs_ ov) ⟨[], [], 0⟩) := by
    rw [hsplit, List.foldl_append, List.foldl_cons]
    exact foldl_inv cs_ ov (stepSegment_placed cs_ ov _) l2 _
      (stepSegment_places cs_ ov _ seg h0)
  simp only [split_text_into_chunks]
  set st := (splitOnSep sep text).foldl (stepSegment cs_ ov) ⟨[], [], 0⟩ with hst
  rcases hplaced with ⟨c, hcm, hcw⟩ | ⟨hne, hcw⟩
  · refine ⟨c, ?_, hcw⟩
    by_cases hcc : st.current_chunk = []
    · rw [if_pos hcc]; exact hcm
    · rw [if_neg hcc]; exact List.mem_append_left _ hcm
  · refine ⟨strip st.current_chunk, ?_, containsWords_strip _ _ hcw⟩
    rw [if_neg hne]
    exact List.mem_append_right _ (by simp)

/-! Lemmas about the retry loop, the folder driver and `process_file`. -/

theorem retryAttempts_all_fail (oracle : Nat → ApiOutcome)
    (h : ∀ i v, oracle i ≠ ApiOutcome.success v) :
    ∀ (l : List Nat) (a s : Nat),
      retryAttempts oracle l a s = ⟨a + l.length, s + l.length, none⟩ := by
  intro l
  induction l with
  | nil => intro a s; simp [retryAttempts]
  | cons i t ih =>
    intro a s
    have hred : retryAttempts oracle (i :: t) a s =
        retryAttempts oracle t (a + 1) (s + 1) := by
      rw [retryAttempts]
      cases ho : oracle i
      case success v => exact absurd ho (h i v)
      all_goals rfl
    rw [hred, ih]
    simp only [List.length_cons]
    congr 1 <;> omega

theorem gen_chunk_all_fail (oracle : Nat → ApiOutcome) (retries : Nat)
    (h : ∀ i v, oracle i ≠ ApiOutcome.success v) :
    generate_embeddings_for_chunk oracle retries = ⟨retries, retries, none⟩ := by
  rw [generate_embeddings_for_chunk, retryAttempts_all_fail oracle h]
  simp

theorem foldl_add_count {α : Type} (g : α → Nat) :
    ∀ (l : List α) (a : Nat),
      l.foldl (fun acc f => acc + g f) a = a + (l.map g).sum := by
  intro l
  induction l with
  | nil => intro a; simp
  | cons x t ih =>
    intro a
    rw [List.foldl_cons, ih, List.map_cons, List.sum_cons]
    omega

theorem folder_run_eq (files : List (List Char))
    (perFile : List Char → Except (List Char) Nat) :
    generate_embeddings_from_folder files perFile =
      ⟨none, ((files.filter eligibleFile).map (fun f => futureCount (perFile f))).sum,
        (files.filter eligibleFile).length⟩ := by
  rw [generate_embeddings_from_folder]
  rw [foldl_add_count (fun f => futureCount (perFile f)) (files.filter eligibleFile) 0]
  rw [Nat.zero_add]

theorem splitOnSepAux_chars (sep : List Char) : ∀ (fuel : Nat) (s acc : List Char),
    ∀ p ∈ splitOnSepAux sep fuel s acc, ∀ c ∈ p, c ∈ s ∨ c ∈ acc := by
  intro fuel
  induction fuel with
  | zero =>
    intro s acc p hp c hc
    cases s with
    | nil =>
      rw [splitOnSepAux, List.mem_singleton] at hp
      subst hp
      exact Or.inr (by simpa using hc)
    | cons a t =>
      rw [show splitOnSepAux sep 0 (a :: t) acc = [acc.reverse ++ a :: t] from rfl,
        List.mem_singleton] at hp
      subst hp
      rw [List.mem_append, List.mem_reverse] at hc
      rcases hc with hc | hc
      · exact Or.inr hc
      · exact Or.inl hc
  | succ n ih =>
    intro s acc p hp c hc
    cases s with
    | nil =>
      rw [splitOnSepAux, List.mem_singleton] at hp
      subst hp
      exact Or.inr (by simpa using hc)
    | cons a t =>
      rw [splitOnSepAux] at hp
      by_cases h : sep ≠ [] ∧ sep.isPrefixOf (a :: t) = true
      · rw [if_pos h, List.mem_cons] at hp
        rcases hp with hp | hp
        · subst hp
          exact Or.inr (by simpa using hc)
        · rcases ih _ [] p hp c hc with h1 | h1
          · exact Or.inl (List.drop_subset _ _ h1)
          · exact absurd h1 (by simp)
      · rw [if_neg h] at hp
        rcases ih t (a :: acc) p hp c hc with h1 | h1
        · exact Or.inl (by simp [h1])
        · rw [List.mem_cons] at h1
          rcases h1 with h1 | h1
          · exact Or.inl (by simp [h1])
          · exact Or.inr h1

theorem splitOnSep_chars (sep text : List Char) :
    ∀ p ∈ splitOnSep sep text, ∀ c ∈ p, c ∈ text := by
  intro p hp c hc
  rcases splitOnSepAux_chars sep text.length text [] p hp c hc with h | h
  · exact h
  · exact absurd h (by simp)

theorem foldl_blank_segs (cs_ ov : Int) :
    ∀ segs : List (List Char), (∀ s ∈ segs, strip s = []) →
      ∀ st : ChunkState, segs.foldl (stepSegment cs_ ov) st = st := by
  intro segs
  induction segs with
  | nil => intro _ st; rfl
  | cons a t ih =>
    intro hb st
    rw [List.foldl_cons, stepSegment_blank _ _ _ _ (hb a (by simp))]
    exact ih (fun s hs => hb s (by simp [hs])) st

theorem split_text_blank (text sep : List Char) (cs_ ov : Int)
    (h : text.all isSpace = true) :
    split_text_into_chunks text sep cs_ ov = [] := by
  have hseg : ∀ s ∈ splitOnSep sep text, strip s = [] := by
    intro s hs
    rw [strip_eq_nil_iff, List.all_eq_true]
    intro c hc
    rw [List.all_eq_true] at h
    exact h c (splitOnSep_chars sep text s hs c hc)
  simp only [split_text_into_chunks]
  rw [foldl_blank_segs cs_ ov _ hseg]
  rfl

theorem process_file_blank_txt (base save_as : List Char)
    (existsF : List Char → Bool) (t pdfText separator : List Char)
    (cs_ ov : Int) (oracle : List Char → Option (List Int))
    (hblank : strip t = [])
    (hskip : ¬ (supportedFormat save_as = true ∧
      existsF (embeddingFileName base save_as) = true)) :
    process_file (str ".txt") base save_as existsF t pdfText separator cs_ ov oracle =
      ⟨0, true, supportedFormat save_as⟩ := by
  simp only [process_file]
  rw [if_neg hskip,
    if_pos (show lowerStr (str ".txt") = str ".txt" by decide),
    split_text_blank _ _ _ _ ((strip_eq_nil_iff t).mp hblank)]
  rfl

theorem process_file_blank_pdf (base save_as : List Char)
    (existsF : List Char → Bool) (readText t separator : List Char)
    (cs_ ov : Int) (oracle : List Char → Option (List Int))
    (hblank : strip t = [])
    (hskip : ¬ (supportedFormat save_as = true ∧
      existsF (embeddingFileName base save_as) = true)) :
    process_file (str ".pdf") base save_as existsF readText t separator cs_ ov oracle =
      ⟨0, true, false⟩ := by
  simp only [process_file]
  rw [if_neg hskip,
    if_neg (show ¬ lowerStr (str ".pdf") = str ".txt" by decide),
    if_pos (show lowerStr (str ".pdf") = str ".pdf" by decide),
    if_pos hblank]

theorem process_file_exists_skip (ext base save_as : List Char)
    (existsF : List Char → Bool) (readText pdfText separator : List Char)
    (cs_ ov : Int) (oracle : List Char → Option (List Int))
    (h1 : supportedFormat save_as = true)
    (h2 : existsF (embeddingFileName base save_as) = true) :
    process_file ext base save_as existsF readText pdfText separator cs_ ov oracle =
      ⟨0, false, false⟩ := by
  simp only [process_file]
  rw [if_pos ⟨h1, h2⟩]

/-! Claim theorems, counterexamples and witnesses. -/

/-- Claim C1 fails as stated: with chunk_size 10 and overlap 8 on four
five-word segments, the second chunk has 13 words although no single input
segment exceeds the budget — the overlap seed alone pushes a chunk past
chunk_size. -/
theorem C1_counterexample :
    (∀ s ∈ splitOnSep (str "\n\n")
        (str "a b c d e\n\nf g h i j\n\nk l m n o\n\np q r s t"),
      ((words (strip s)).length : Int) ≤ 10) ∧
    ∃ c ∈ split_text_into_chunks
        (str "a b c d e\n\nf g h i j\n\nk l m n o\n\np q r s t")
        (str "\n\n") 10 8, 10 < ((words c).length : Int) := by
  decide

/-- Claim C1 (amended): for overlap > 0, every chunk's word count is at most
chunk_size, except a chunk seeded at a close — overlap carry-over words plus
a single input segment — whose word count may exceed the budget but is at
most overlap plus that segment's word count. -/
theorem C1_amended_bound (text sep : List Char) (cs_ ov : Int) (hov : 0 < ov)
    (c : List Char) (hc : c ∈ split_text_into_chunks text sep cs_ ov) :
    ((words c).length : Int) ≤ cs_ ∨
      ∃ s ∈ splitOnSep sep text, strip s ≠ [] ∧
        (words c).length ≤ ov.toNat + (words (strip s)).length :=
  split_budget text sep cs_ ov hov c hc

/-- Witness for C1 (amended) at a concrete input. -/
theorem C1_amended_bound_witness :
    ((words (str "a b")).length : Int) ≤ 10 ∨
      ∃ s ∈ splitOnSep (str "\n\n") (str "a b"), strip s ≠ [] ∧
        (words (str "a b")).length ≤ (8 : Int).toNat + (words (strip s)).length :=
  C1_amended_bound (str "a b") (str "\n\n") 10 8 (by decide) (str "a b") (by decide)

/-- Claim C2 fails as stated: with overlap 0, chunk_size 3 and two two-word
segments, the second chunk starts with all the words of the first chunk
rather than directly with the fresh segment — overlap 0 does not disable
seeding, it seeds with the whole previous chunk. -/
theorem C2_counterexample :
    split_text_into_chunks (str "a b\n\nc d") (str "\n\n") 3 0 =
      [str "a b", str "a b c d"] ∧
    words (str "a b c d") = words (str "a b") ++ words (str "c d") ∧
    words (str "a b") ≠ [] := by
  decide

/-- Claim C2 (amended): with overlap ≤ 0, whenever a chunk is closed the next
buffer is seeded with ALL the words of the just-closed chunk, so each chunk
after the first begins with the full word sequence of its predecessor. -/
theorem C2_amended_full_carry (text sep : List Char) (cs_ ov : Int)
    (hov : ov ≤ 0) (i : Nat) (c1 c2 : List Char)
    (h1 : (split_text_into_chunks text sep cs_ ov).get? i = some c1)
    (h2 : (split_text_into_chunks text sep cs_ ov).get? (i + 1) = some c2) :
    (words c2).take (words c1).length = words c1 := by
  have hrel := chain'_pair _ (split_seed_chain text sep cs_ ov) i c1 c2 h1 h2
  simp only [SeedRel] at hrel
  have hsl : seedLen ov (words c1).length = (words c1).length := by
    rw [seedLen, if_neg]
    intro hcon
    omega
  rw [hsl, Nat.sub_self, List.drop_zero] at hrel
  exact hrel.1

/-- Witness for C2 (amended) at a concrete input. -/
theorem C2_amended_full_carry_witness :
    (words (str "a b c d")).take (words (str "a b")).length = words (str "a b") :=
  C2_amended_full_carry (str "a b\n\nc d") (str "\n\n") 3 0 (by decide) 0
    (str "a b") (str "a b c d") (by decide) (by decide)

/-- Claim C3 fails as stated: the folder driver computes a total of 5 for
these per-file results but returns None (the Python function has no return
statement; its docstring says Returns: None), not the total. -/
theorem C3_counterexample :
    (generate_embeddings_from_folder [str "a.txt", str "b.pdf", str "c.doc"]
        (fun f => if f = str "a.txt" then Except.ok 2
          else if f = str "b.pdf" then Except.ok 3
          else Except.error (str "boom"))).returned = none ∧
    (generate_embeddings_from_folder [str "a.txt", str "b.pdf", str "c.doc"]
        (fun f => if f = str "a.txt" then Except.ok 2
          else if f = str "b.pdf" then Except.ok 3
          else Except.error (str "boom"))).totalEmbeddings = 5 ∧
    (none : Option Nat) ≠ some 5 := by
  decide

/-- Claim C3 (amended): the folder driver accumulates the sum of the
per-file counts over the eligible files (a future whose result() raises
contributes zero) and reports it in its summary line, but the function
itself returns None. -/
theorem C3_amended_total (files : List (List Char))
    (perFile : List Char → Except (List Char) Nat) :
    (generate_embeddings_from_folder files perFile).returned = none ∧
    (generate_embeddings_from_folder files perFile).totalEmbeddings =
      ((files.filter eligibleFile).map (fun f => futureCount (perFile f))).sum := by
  rw [folder_run_eq]
  exact ⟨rfl, rfl⟩

/-- Claim C4 (confirmed): with overlap > 0, each chunk after the first
begins with exactly the trailing min(overlap, word count of the previous
chunk) words of the immediately preceding chunk. -/
theorem C4_overlap_prefix (text sep : List Char) (cs_ ov : Int) (hov : 0 < ov)
    (i : Nat) (c1 c2 : List Char)
    (h1 : (split_text_into_chunks text sep cs_ ov).get? i = some c1)
    (h2 : (split_text_into_chunks text sep cs_ ov).get? (i + 1) = some c2) :
    (words c2).take (min ov.toNat (words c1).length) =
      (words c1).drop ((words c1).length - min ov.toNat (words c1).length) := by
  have hrel := chain'_pair _ (split_seed_chain text sep cs_ ov) i c1 c2 h1 h2
  simp only [SeedRel] at hrel
  have hsl : seedLen ov (words c1).length = min ov.toNat (words c1).length := by
    rw [seedLen]
    split
    · next h =>
      have hle : ov.toNat ≤ (words c1).length := by omega
      exact (Nat.min_eq_left hle).symm
    · next h =>
      rw [not_and] at h
      have hgt := h hov
      have hle : (words c1).length ≤ ov.toNat := by omega
      exact (Nat.min_eq_right hle).symm
  rw [hsl] at hrel
  exact hrel.1

/-- Witness for C4 at a concrete input with three chunks. -/
theorem C4_overlap_prefix_witness :
    (words (str "c d e f g h i j k l m n o")).take
        (min (8 : Int).toNat (words (str "a b c d e f g h i j")).length) =
      (words (str "a b c d e f g h i j")).drop
        ((words (str "a b c d e f g h i j")).length -
          min (8 : Int).toNat (words (str "a b c d e f g h i j")).length) :=
  C4_overlap_prefix (str "a b c d e\n\nf g h i j\n\nk l m n o\n\np q r s t")
    (str "\n\n") 10 8 (by decide) 0 (str "a b c d e f g h i j")
    (str "c d e f g h i j k l m n o") (by decide) (by decide)

/-- Claim C5 fails as stated: with retries = 3 and a persistent rate-limit
condition the call makes 3 attempts and sleeps 3 times — once after every
failed attempt, including the final one — not retries - 1 = 2 times. -/
theorem C5_counterexample :
    generate_embeddings_for_chunk (fun _ => ApiOutcome.rateLimited) 3 =
      ⟨3, 3, none⟩ ∧ (3 : Nat) ≠ 3 - 1 := by
  decide

/-- Claim C5 (amended): under a persistently failing embedding call the
function makes exactly `retries` attempts, sleeps the fixed backoff interval
after every failed attempt including the final one (`retries` sleeps), and
then returns None rather than raising. -/
theorem C5_amended_retries (oracle : Nat → ApiOutcome) (retries : Nat)
    (h : ∀ i v, oracle i ≠ ApiOutcome.success v) :
    generate_embeddings_for_chunk oracle retries = ⟨retries, retries, none⟩ :=
  gen_chunk_all_fail oracle retries h

/-- Witness for C5 (amended) at a concrete oracle. -/
theorem C5_amended_retries_witness :
    generate_embeddings_for_chunk (fun _ => ApiOutcome.connectionFailed) 4 =
      ⟨4, 4, none⟩ :=
  C5_amended_retries (fun _ => ApiOutcome.connectionFailed) 4
    (fun _ _ h => ApiOutcome.noConfusion h)

/-- Claim C6 fails as stated: the single-space text is non-empty and
chunk_size 1 ≥ 1, yet the chunk list is empty, because the only segment is
blank after trimming and is discarded. -/
theorem C6_counterexample :
    str " " ≠ [] ∧ (1 : Int) ≤ 1 ∧
    split_text_into_chunks (str " ") (str "\n\n") 1 100 = [] := by
  decide

/-- Claim C6 (amended): for every text with at least one segment that is
non-blank after trimming (and chunk_size ≥ 1), the chunk list is non-empty
and every non-blank segment's words occur contiguously in some chunk, so the
concatenation of the chunks covers every such segment at least once. -/
theorem C6_amended_coverage (text sep : List Char) (cs_ ov : Int)
    (_hcs : 1 ≤ cs_)
    (hx : ∃ s ∈ splitOnSep sep text, strip s ≠ []) :
    split_text_into_chunks text sep cs_ ov ≠ [] ∧
    ∀ s ∈ splitOnSep sep text, strip s ≠ [] →
      ∃ c ∈ split_text_into_chunks text sep cs_ ov, ∃ pre post,
        words c = pre ++ words (strip s) ++ post := by
  constructor
  · obtain ⟨s, hs, hns⟩ := hx
    obtain ⟨c, hc, _⟩ := split_covers_segment text sep cs_ ov s hs hns
    intro he
    rw [he] at hc
    exact absurd hc (by simp)
  · intro s hs hns
    exact split_covers_segment text sep cs_ ov s hs hns

/-- Witness for C6 (amended) at a concrete input. -/
theorem C6_amended_coverage_witness :
    split_text_into_chunks (str "hi there") (str "\n\n") 5 2 ≠ [] ∧
    ∀ s ∈ splitOnSep (str "\n\n") (str "hi there"), strip s ≠ [] →
      ∃ c ∈ split_text_into_chunks (str "hi there") (str "\n\n") 5 2, ∃ pre post,
        words c = pre ++ words (strip s) ++ post :=
  C6_amended_coverage (str "hi there") (str "\n\n") 5 2 (by decide)
    ⟨str "hi there", by decide, by decide⟩

/-- Claim C7 (confirmed): a segment whose word count exceeds chunk_size is
never split across two chunks — its words occur contiguously inside a single
chunk of the output. -/
theorem C7_oversized_contiguous (text sep : List Char) (cs_ ov : Int)
    (seg : List Char) (hmem : seg ∈ splitOnSep sep text)
    (hns : strip seg ≠ [])
    (_hbig : cs_ < ((words (strip seg)).length : Int)) :
    ∃ c ∈ split_text_into_chunks text sep cs_ ov, ∃ pre post,
      words c = pre ++ words (strip seg) ++ post :=
  split_covers_segment text sep cs_ ov seg hmem hns

/-- Witness for C7 at a concrete input with an oversized segment. -/
theorem C7_oversized_contiguous_witness :
    ∃ c ∈ split_text_into_chunks (str "a b c\n\nd") (str "\n\n") 2 1, ∃ pre post,
      words c = pre ++ words (strip (str "a b c")) ++ post :=
  C7_oversized_contiguous (str "a b c\n\nd") (str "\n\n") 2 1 (str "a b c")
    (by decide) (by decide) (by decide)

/-- Claim C8 fails as stated: a .txt file whose content is blank (a single
space) yields a zero count, but an output file is still written — the blank
check exists only on the PDF path, so the claimed "writes no output file"
does not hold. -/
theorem C8_counterexample :
    strip (str " ") = [] ∧
    process_file (str ".txt") (str "doc") (str "npy") (fun _ => false)
      (str " ") (str "") (str "\n\n") 1000 100 (fun _ => none) =
      ⟨0, true, true⟩ := by
  decide

/-- Claim C8 (amended): blank extracted text is handled differently by file
type: a blank PDF is skipped with zero result and no output written, while a
blank TXT returns 0 but still writes an (empty) output file whenever the
save format is supported. -/
theorem C8_amended_blank (base save_as : List Char) (existsF : List Char → Bool)
    (t other separator : List Char) (cs_ ov : Int)
    (oracle : List Char → Option (List Int)) (hblank : strip t = [])
    (hskip : ¬ (supportedFormat save_as = true ∧
      existsF (embeddingFileName base save_as) = true)) :
    process_file (str ".pdf") base save_as existsF other t separator cs_ ov oracle =
      ⟨0, true, false⟩ ∧
    process_file (str ".txt") base save_as existsF t other separator cs_ ov oracle =
      ⟨0, true, supportedFormat save_as⟩ :=
  ⟨process_file_blank_pdf base save_as existsF other t separator cs_ ov oracle
      hblank hskip,
    process_file_blank_txt base save_as existsF t other separator cs_ ov oracle
      hblank hskip⟩

/-- Witness for C8 (amended) at a concrete input. -/
theorem C8_amended_blank_witness :
    process_file (str ".pdf") (str "d") (str "json") (fun _ => false)
      (str "x") (str " ") (str "\n\n") 1000 100 (fun _ => none) =
      ⟨0, true, false⟩ ∧
    process_file (str ".txt") (str "d") (str "json") (fun _ => false)
      (str " ") (str "x") (str "\n\n") 1000 100 (fun _ => none) =
      ⟨0, true, supportedFormat (str "json")⟩ :=
  C8_amended_blank (str "d") (str "json") (fun _ => false) (str " ") (str "x")
    (str "\n\n") 1000 100 (fun _ => none) (by decide) (by decide)

/-- Claim C9 (confirmed): when the save format is supported and the derived
output file `<stem>_embeddings.<ext>` already exists, process_file returns 0,
performs no extraction call and writes nothing. -/
theorem C9_idempotent_skip (ext base save_as : List Char)
    (existsF : List Char → Bool) (readText pdfText separator : List Char)
    (cs_ ov : Int) (oracle : List Char → Option (List Int))
    (h1 : supportedFormat save_as = true)
    (h2 : existsF (embeddingFileName base save_as) = true) :
    process_file ext base save_as existsF readText pdfText separator cs_ ov oracle =
      ⟨0, false, false⟩ :=
  process_file_exists_skip ext base save_as existsF readText pdfText separator
    cs_ ov oracle h1 h2

/-- Witness for C9 at a concrete input. -/
theorem C9_idempotent_skip_witness :
    process_file (str ".txt") (str "doc") (str "npy")
      (fun p => p = str "doc_embeddings.npy") (str "x") (str "") (str "\n\n")
      1000 100 (fun _ => none) = ⟨0, false, false⟩ :=
  C9_idempotent_skip (str ".txt") (str "doc") (str "npy")
    (fun p => p = str "doc_embeddings.npy") (str "x") (str "") (str "\n\n")
    1000 100 (fun _ => none) (by decide) (by decide)

/-- Claim C10 (confirmed): every chunk returned by split_text_into_chunks is
non-empty and equals its own whitespace-stripped form. -/
theorem C10_chunks_stripped (text sep : List Char) (cs_ ov : Int)
    (c : List Char) (hc : c ∈ split_text_into_chunks text sep cs_ ov) :
    c ≠ [] ∧ strip c = c :=
  split_chunks_clean text sep cs_ ov c hc

/-- Witness for C10 at a concrete input. -/
theorem C10_chunks_stripped_witness :
    str "a b" ≠ [] ∧ strip (str "a b") = str "a b" :=
  C10_chunks_stripped (str "a b") (str ".") 10 2 (str "a b") (by decide)
